import Mathlib

/-
  Verification development for the genetic-algorithm-comparison repository.

  Part 1 embeds the results-analysis pipeline (scripts/analyze_results.py):
  the data loader, the statistics engine, the ranking engine, the report
  generator's language mentions, and the main pipeline control flow.
  Machine floats are modelled exactly: finite values as rationals (reals where
  a square root occurs), and IEEE non-finite results (NaN/inf) as `none` of an
  `Option`.  Part 2 embeds the One-Max genetic algorithm
  (implementations/python/onemax_ga.py) with randomness supplied by an
  explicit oracle stream.
-/

set_option maxHeartbeats 1000000

namespace Analysis

/-- One CSV data row after `pd.to_numeric(..., errors='coerce')`
(analyze_results.py lines 43-46): the `language` cell and the 25 `run`
cells, where a cell that fails numeric parsing (e.g. the literal `ERROR`)
is `none` and a numeric cell is `some` of its exact value. -/
structure RawRow where
  language : String
  runs : List (Option ℚ)
deriving DecidableEq

/-- `row[run_columns].dropna().values` (line 63): the valid numeric samples
of a row, in column order. -/
def times (r : RawRow) : List ℚ := r.runs.filterMap id

/-- `df.dropna(subset=run_columns, how='all')` (line 49): keep a row iff at
least one sample cell parsed numerically. -/
def cleanRows (rows : List RawRow) : List RawRow :=
  rows.filter fun r => r.runs.any fun c => c.isSome

/-- `load_and_clean_data` (lines 31-55).  The input is `none` when the CSV
file does not exist.  Both fatal paths call `sys.exit(1)`; the exit code is
the `Except.error` payload.  On success the cleaned rows are returned. -/
def load_and_clean_data (csv : Option (List RawRow)) : Except Nat (List RawRow) :=
  match csv with
  | none => Except.error 1
  | some rows =>
    let cleaned := cleanRows rows
    if cleaned.isEmpty then Except.error 1 else Except.ok cleaned

/-- `np.mean(times)` (line 70): arithmetic mean.  Only applied to non-empty
lists in the pipeline (empty rows are skipped at line 65). -/
def npMean (xs : List ℚ) : ℚ := xs.sum / (xs.length : ℚ)

/-- The radicand of `np.std(times, ddof=1)` (line 71): sum of squared
deviations divided by n - 1 (Bessel's correction).  For n = 1 the source
divides 0 by 0; callers below map that to the undefined value. -/
def sampleVariance (xs : List ℚ) : ℚ :=
  ((xs.map fun x => (x - npMean xs) ^ 2).sum) / ((xs.length : ℚ) - 1)

/-- The real value of `np.std(times, ddof=1)` when it is finite. -/
noncomputable def stdVal (xs : List ℚ) : ℝ := Real.sqrt ((sampleVariance xs : ℝ))

/-- `np.std(times, ddof=1)` (line 71).  For n ≤ 1 the degrees-of-freedom
divisor is 0 and numpy produces NaN, modelled as `none`. -/
noncomputable def npStd (xs : List ℚ) : Option ℝ :=
  if 2 ≤ xs.length then some (stdVal xs) else none

/-- `(np.std(times, ddof=1) / np.mean(times)) * 100` (line 76), the
coefficient of variation.  NaN std propagates; a zero mean makes the
division produce NaN or ±inf, both modelled as `none`. -/
noncomputable def npCV (xs : List ℚ) : Option ℝ :=
  (npStd xs).bind fun s => if npMean xs = 0 then none else some (s / (npMean xs : ℝ) * 100)

/-- `stats.sem(times)` (line 82): standard error of the mean,
std(ddof=1) / sqrt(n). -/
noncomputable def stdErr (xs : List ℚ) : ℝ := stdVal xs / Real.sqrt (xs.length : ℝ)

/-- Lines 80-89.  For n > 1 the source calls
`stats.t.interval(0.95, n-1, loc=mean, scale=sem)`; scipy's argument check
rejects `scale = 0` (which happens exactly when the sample variance is 0)
and returns NaN bounds, modelled as `none`.  Otherwise the interval is
mean ± t · sem where t is the 0.975 quantile of the Student-t distribution
with n-1 degrees of freedom, supplied here as the abstract parameter
`t975` (its value is transcendental; the claims only use its sign).
For n = 1 the source sets both bounds to the mean. -/
noncomputable def ciInterval (t975 : ℕ → ℝ) (xs : List ℚ) : Option (ℝ × ℝ) :=
  if 1 < xs.length then
    if sampleVariance xs = 0 then none
    else
      some ((npMean xs : ℝ) - t975 (xs.length - 1) * stdErr xs,
            (npMean xs : ℝ) + t975 (xs.length - 1) * stdErr xs)
  else some ((npMean xs : ℝ), (npMean xs : ℝ))

/-- `ci[1] - ci[0]` (line 85); 0 in the n = 1 branch (line 89), which the
`some (m, m)` case reproduces as m - m. -/
noncomputable def ciWidth (t975 : ℕ → ℝ) (xs : List ℚ) : Option ℝ :=
  (ciInterval t975 xs).map fun p => p.2 - p.1

/-- A stand-in positive t-quantile used by concrete instances (the claims
quantify over every positive quantile function; 13 is near the true
12.706... value at 1 degree of freedom). -/
noncomputable def tExample : ℕ → ℝ := fun _ => 13

/-- `np.median(times)` (line 72): sort, take the middle element for odd n,
the mean of the two middle elements for even n. -/
def npMedianOf (s : List ℚ) : ℚ :=
  if s.length % 2 = 1 then s.getD (s.length / 2) 0
  else (s.getD (s.length / 2 - 1) 0 + s.getD (s.length / 2) 0) / 2

/-- `np.median(times)` applied to the sorted copy of the samples. -/
def npMedian (xs : List ℚ) : ℚ := npMedianOf (List.insertionSort (fun a b => a ≤ b) xs)

/-- `np.min(times)` (line 73); only applied to non-empty lists. -/
def npMin : List ℚ → ℚ
  | [] => 0
  | x :: l => l.foldl min x

/-- `np.max(times)` (line 74); only applied to non-empty lists. -/
def npMax : List ℚ → ℚ
  | [] => 0
  | x :: l => l.foldl max x

/-- Comparison key for the 'CV (%)' column as used by `idxmin`/`idxmax`
(lines 214-215).  The finite CV is 100·√(variance)/mean; for rows with
positive mean the strictly monotone map x ↦ (x/100)² turns it into the
rational variance/mean², which is what is stored here so that comparisons
stay exact.  Rows whose CV is non-finite in the source (n = 1, or zero
mean) carry `none` and are skipped, like pandas skips NaN. -/
def cvKey (xs : List ℚ) : Option ℚ :=
  if 2 ≤ xs.length ∧ npMean xs ≠ 0 then some (sampleVariance xs / (npMean xs) ^ 2) else none

/-- One row of `stats_df` (the dict built at lines 68-89).  Fields, in
order: language, mean, median, min, max, valid-run count, CV comparison
key.  The remaining columns of the source dict are given by the standalone
functions on the same sample list: 'Std Dev (ms)' = `npStd`,
'CV (%)' = `npCV`, and the CI columns = `ciInterval`/`ciWidth`. -/
structure StatRow where
  language : String
  mean : ℚ
  median : ℚ
  minT : ℚ
  maxT : ℚ
  validRuns : ℕ
  cvK : Option ℚ
deriving DecidableEq

/-- The record built from one row's valid samples (lines 68-77). -/
def statsOfTimes (lang : String) (xs : List ℚ) : StatRow :=
  ⟨lang, npMean xs, npMedian xs, npMin xs, npMax xs, xs.length, cvKey xs⟩

/-- `calculate_statistics` (lines 57-93): rows whose valid-sample list is
empty are skipped (line 65), every other row yields one statistics record. -/
def calculate_statistics (rows : List RawRow) : List StatRow :=
  (rows.filter fun r => !(times r).isEmpty).map fun r => statsOfTimes r.language (times r)

/-- One row of `ranking_df`: a statistics record with its 'Rank' and
'Relative Speed' columns (lines 162-167). -/
structure RankedRow where
  row : StatRow
  rank : ℕ
  relSpeed : ℚ
deriving DecidableEq

/-- Assign ranks k, k+1, ... down a list and the relative speed
mean / fastest to each record (lines 163-167). -/
def rankFrom (fastest : ℚ) : ℕ → List StatRow → List RankedRow
  | _, [] => []
  | k, r :: rs => ⟨r, k, r.mean / fastest⟩ :: rankFrom fastest (k + 1) rs

/-- `create_ranking_analysis` (lines 159-170) applied to the already-sorted
statistics table.  The source sorts with `sort_values('Mean (ms)')`, whose
contract is: the output is a permutation of the input whose means ascend
(the tie order of the default quicksort kind is not specified); theorems
below take the sorted table together with those two facts as hypotheses.
`fastest_time` is `ranking_df['Mean (ms)'].iloc[0]`, the first mean after
sorting; Rank is `range(1, len+1)`. -/
def create_ranking_analysis (sorted : List StatRow) : List RankedRow :=
  match sorted with
  | [] => []
  | r0 :: rs => rankFrom r0.mean 1 (r0 :: rs)

/-- Minimum of the 'Mean (ms)' column. -/
def minMean (l : List StatRow) : ℚ := npMin (l.map fun r => r.mean)

/-- `stats_df['CV (%)'].idxmin()` (line 214): the first row attaining the
smallest CV, NaN rows skipped.  Comparisons use `cvK` (see `cvKey`). -/
def idxminCv : List StatRow → Option StatRow
  | [] => none
  | r :: rs =>
    match idxminCv rs, r.cvK with
    | none, none => none
    | none, some _ => some r
    | some b, none => some b
    | some b, some q =>
      match b.cvK with
      | some qb => if q ≤ qb then some r else some b
      | none => some r

/-- `stats_df['CV (%)'].idxmax()` (line 215), symmetric to `idxminCv`. -/
def idxmaxCv : List StatRow → Option StatRow
  | [] => none
  | r :: rs =>
    match idxmaxCv rs, r.cvK with
    | none, none => none
    | none, some _ => some r
    | some b, none => some b
    | some b, some q =>
      match b.cvK with
      | some qb => if qb ≤ q then some r else some b
      | none => some r

/-- Every language mention in `generate_summary_report` (lines 172-255), in
report order: the ranking table (line 193), fastest = `ranking_df.iloc[0]`
and slowest = `ranking_df.iloc[-1]` (lines 204-209), most- and
least-consistent by CV over `stats_df` (lines 214-220), and the detailed
per-language blocks over `ranking_df` (lines 246-253).  The paradigm
section (lines 224-239) prints category names, never language names. -/
def reportLanguages (stats : List StatRow) (ranking : List RankedRow) : List String :=
  (ranking.map fun rr => rr.row.language)
    ++ (ranking.head?.map fun rr => rr.row.language).toList
    ++ (ranking.getLast?.map fun rr => rr.row.language).toList
    ++ ((idxminCv stats).map fun r => r.language).toList
    ++ ((idxmaxCv stats).map fun r => r.language).toList
    ++ (ranking.map fun rr => rr.row.language)

/-- The files `main` persists on the success path (lines 280-298): the
detailed-statistics CSV (the ranking table), the text report (its language
mentions), and the chart's bound data (per-language raw samples; the second
panel's means and CI half-widths derive from the same statistics table). -/
structure Artifacts where
  statsCsv : List RankedRow
  reportMentions : List String
  chartData : List (String × List ℚ)
deriving DecidableEq

/-- `main` (lines 257-304).  `sortImpl` stands for pandas
`sort_values('Mean (ms)')` (see `create_ranking_analysis`).  Writes happen
only on the success path, so the artifacts appear only in `Except.ok`; a
fatal path carries the process exit code 1 and produces nothing. -/
def mainPipeline (sortImpl : List StatRow → List StatRow)
    (csv : Option (List RawRow)) : Except Nat Artifacts :=
  match load_and_clean_data csv with
  | Except.error c => Except.error c
  | Except.ok df =>
    let statsDf := calculate_statistics df
    if statsDf.isEmpty then Except.error 1
    else
      let rankingDf := create_ranking_analysis (sortImpl statsDf)
      Except.ok ⟨rankingDf, reportLanguages statsDf rankingDf, df.map fun r => (r.language, times r)⟩

/-- The all-error row of the C4 scenario. -/
def badRowEx : RawRow := ⟨"foo", List.replicate 25 none⟩

/-- A companion row with one valid sample. -/
def goodRowEx : RawRow := ⟨"go", some 5 :: List.replicate 24 none⟩

/-- The two-row dataset of the C4 scenario. -/
def rowsEx : List RawRow := [badRowEx, goodRowEx]

/-- A concrete statistics record for witnesses (fields: language, mean,
median, min, max, valid runs, CV key). -/
def statRowA : StatRow := ⟨"a", 2, 2, 2, 2, 1, none⟩

/-- A second concrete statistics record for witnesses. -/
def statRowB : StatRow := ⟨"b", 4, 4, 4, 4, 1, none⟩

/-- A concrete statistics table for witnesses, already ascending by mean. -/
def statsEx : List StatRow := [statRowA, statRowB]

end Analysis

namespace OneMax

/-- GA parameter (onemax_ga.py line 10). -/
def POPULATION_SIZE : ℕ := 100

/-- GA parameter (line 11). -/
def CHROMOSOME_LENGTH : ℕ := 100

/-- GA parameter (line 12). -/
def MAX_GENERATIONS : ℕ := 500

/-- GA parameter (line 15).  The probabilistic parameters CROSSOVER_RATE
(line 13) and MUTATION_RATE (line 14) only feed threshold tests on
`random.random()` draws; those tests are modelled as Boolean oracle draws
below, since only the shape of the control flow matters to the claims. -/
def TOURNAMENT_SIZE : ℕ := 3

/-- The random-number source: an arbitrary oracle stream consumed one value
per call of the `random` module, standing for Python's Mersenne-Twister
state. -/
structure Gen where
  seq : ℕ → ℕ
  pos : ℕ

/-- Draw one value and advance the stream. -/
def nextNat (g : Gen) : ℕ × Gen := (g.seq g.pos, ⟨g.seq, g.pos + 1⟩)

/-- A Boolean draw: models `random.choice([True, False])` and the
threshold tests `random.random() < rate` / `> rate`. -/
def nextBool (g : Gen) : Bool × Gen :=
  let p := nextNat g
  (p.1 % 2 == 0, p.2)

/-- A uniform index below n: models one element of
`random.choices(range(n), ...)`. -/
def randIndex (n : ℕ) (g : Gen) : ℕ × Gen :=
  let p := nextNat g
  (p.1 % n, p.2)

abbrev Individual := List Bool
abbrev Population := List Individual

/-- The inner comprehension of `initialize_population` (line 25): `length`
independent coin flips. -/
def initialize_individual : ℕ → Gen → Individual × Gen
  | 0, g => ([], g)
  | n + 1, g =>
    let b := nextBool g
    let rest := initialize_individual n b.2
    (b.1 :: rest.1, rest.2)

/-- `initialize_population(size, length)` (lines 21-27). -/
def initialize_population : ℕ → ℕ → Gen → Population × Gen
  | 0, _, g => ([], g)
  | n + 1, len, g =>
    let ind := initialize_individual len g
    let rest := initialize_population n len ind.2
    (ind.1 :: rest.1, rest.2)

/-- `evaluate_fitness` (lines 30-32): `sum(individual)`, the count of True
genes. -/
def evaluate_fitness (ind : Individual) : ℕ := (ind.filter fun b => b).length

/-- The scan of lines 38-44: starting from the first drawn index, replace
the running best index whenever a later index has strictly greater
fitness. -/
def pickBest (fits : List ℕ) : ℕ → List ℕ → ℕ
  | best, [] => best
  | best, i :: is => pickBest fits (if fits.getD best 0 < fits.getD i 0 then i else best) is

/-- `random.choices(range(n), k=k)` (line 37): k independent indices. -/
def randIndices (n : ℕ) : ℕ → Gen → List ℕ × Gen
  | 0, g => ([], g)
  | k + 1, g =>
    let p := randIndex n g
    let rest := randIndices n k p.2
    (p.1 :: rest.1, rest.2)

/-- `tournament_selection` (lines 35-46).  The `[]` branch is unreachable
for the fixed tournament size 3 (the source would raise an IndexError on an
empty draw). -/
def tournament_selection (pop : Population) (fits : List ℕ) (tsize : ℕ) (g : Gen) :
    Individual × Gen :=
  let drawn := randIndices pop.length tsize g
  match drawn.1 with
  | [] => (pop.getD 0 [], drawn.2)
  | i0 :: rest => (pop.getD (pickBest fits i0 rest) [], drawn.2)

/-- `single_point_crossover` (lines 49-59): with probability 1-rate the
parents are returned unchanged; otherwise `randint(1, len(parent1)-1)`
picks the cut point, modelled as 1 + draw mod (len-1). -/
def single_point_crossover (p1 p2 : Individual) (g : Gen) : (Individual × Individual) × Gen :=
  let skip := nextBool g
  if skip.1 then ((p1, p2), skip.2)
  else
    let v := nextNat skip.2
    let point := 1 + v.1 % (p1.length - 1)
    ((p1.take point ++ p2.drop point, p2.take point ++ p1.drop point), v.2)

/-- `mutate` (lines 62-68): one draw per gene, flipping it when the draw
passes the mutation test. -/
def mutate : Individual → Gen → Individual × Gen
  | [], g => ([], g)
  | b :: bs, g =>
    let c := nextBool g
    let rest := mutate bs c.2
    ((if c.1 then !b else b) :: rest.1, rest.2)

/-- One iteration of the body of the loop at lines 91-106: select two
parents, cross them over, mutate both offspring. -/
def breed (pop : Population) (fits : List ℕ) (g : Gen) : (Individual × Individual) × Gen :=
  let s1 := tournament_selection pop fits TOURNAMENT_SIZE g
  let s2 := tournament_selection pop fits TOURNAMENT_SIZE s1.2
  let c := single_point_crossover s1.1 s2.1 s2.2
  let m1 := mutate c.1.1 c.2
  let m2 := mutate c.1.2 m1.2
  ((m1.1, m2.1), m2.2)

/-- The loop `for i in range(0, POPULATION_SIZE, 2)` (lines 91-106),
running ⌈POPULATION_SIZE/2⌉ times: append the first offspring, and the
second only while the new population is still short. -/
def buildNewPopulation (pop : Population) (fits : List ℕ) :
    ℕ → Population → Gen → Population × Gen
  | 0, acc, g => (acc, g)
  | k + 1, acc, g =>
    let br := breed pop fits g
    let acc1 := acc ++ [br.1.1]
    let acc2 := if acc1.length < POPULATION_SIZE then acc1 ++ [br.1.2] else acc1
    buildNewPopulation pop fits k acc2 br.2

/-- Build the next generation from the current population and its
fitnesses (lines 89-108). -/
def next_generation (pop : Population) (fits : List ℕ) (g : Gen) : Population × Gen :=
  buildNewPopulation pop fits ((POPULATION_SIZE + 1) / 2) [] g

/-- `max(fitnesses)` (line 84) over the non-empty fitness list; the fold
base 0 never exceeds any fitness count. -/
def maxFitness (fits : List ℕ) : ℕ := fits.foldl max 0

/-- The `for generation in range(1, MAX_GENERATIONS + 1)` loop of `run_ga`
(lines 79-112), structured on the remaining iteration count: evaluate the
population, return early on a perfect individual, otherwise breed the next
generation; when the loop ends, return MAX_GENERATIONS with the final
population's best fitness (lines 110-112). -/
def gaLoop : ℕ → ℕ → Population → Gen → ℕ × ℕ
  | 0, _, pop, _ => (MAX_GENERATIONS, maxFitness (pop.map evaluate_fitness))
  | fuel + 1, generation, pop, g =>
    let fits := pop.map evaluate_fitness
    let m := maxFitness fits
    if m = CHROMOSOME_LENGTH then (generation, m)
    else
      let np := next_generation pop fits g
      gaLoop fuel (generation + 1) np.1 np.2

/-- `run_ga` (lines 71-112): returns (generations, best fitness). -/
def run_ga (g : Gen) : ℕ × ℕ :=
  let ip := initialize_population POPULATION_SIZE CHROMOSOME_LENGTH g
  gaLoop MAX_GENERATIONS 1 ip.1 ip.2

/-- The population invariant: exactly POPULATION_SIZE individuals, each of
CHROMOSOME_LENGTH genes. -/
def popInv (pop : Population) : Prop :=
  pop.length = POPULATION_SIZE ∧ ∀ ind ∈ pop, ind.length = CHROMOSOME_LENGTH

/-- A concrete oracle stream for witnesses. -/
def constGen : Gen := ⟨fun _ => 0, 0⟩

/-- A concrete all-ones population for witnesses. -/
def onesPop : Population := List.replicate 100 (List.replicate 100 true)

end OneMax

namespace Analysis

theorem foldl_min_le_init (l : List ℚ) : ∀ a : ℚ, l.foldl min a ≤ a := by
  induction l with
  | nil => intro a; simp
  | cons x l ih => intro a; exact le_trans (ih (min a x)) (min_le_left a x)

theorem foldl_min_le_mem (l : List ℚ) : ∀ (a y : ℚ), y ∈ l → l.foldl min a ≤ y := by
  induction l with
  | nil => intro a y hy; simp at hy
  | cons x l ih =>
    intro a y hy
    rcases List.mem_cons.mp hy with rfl | hy
    · exact le_trans (foldl_min_le_init l (min a y)) (min_le_right a y)
    · exact ih (min a x) y hy

theorem foldl_min_attained (l : List ℚ) : ∀ a : ℚ, l.foldl min a = a ∨ l.foldl min a ∈ l := by
  induction l with
  | nil => intro a; left; rfl
  | cons x l ih =>
    intro a
    rcases ih (min a x) with h | h
    · rcases min_choice a x with h2 | h2
      · left
        show l.foldl min (min a x) = a
        rw [h, h2]
      · right
        show l.foldl min (min a x) ∈ x :: l
        rw [h, h2]
        exact List.mem_cons_self x l
    · right
      exact List.mem_cons_of_mem x h

theorem le_foldl_max_init (l : List ℚ) : ∀ a : ℚ, a ≤ l.foldl max a := by
  induction l with
  | nil => intro a; simp
  | cons x l ih => intro a; exact le_trans (le_max_left a x) (ih (max a x))

theorem mem_le_foldl_max (l : List ℚ) : ∀ (a y : ℚ), y ∈ l → y ≤ l.foldl max a := by
  induction l with
  | nil => intro a y hy; simp at hy
  | cons x l ih =>
    intro a y hy
    rcases List.mem_cons.mp hy with rfl | hy
    · exact le_trans (le_max_right a y) (le_foldl_max_init l (max a y))
    · exact ih (max a x) y hy

theorem npMin_le (xs : List ℚ) (y : ℚ) (hy : y ∈ xs) : npMin xs ≤ y := by
  cases xs with
  | nil => simp at hy
  | cons x l =>
    rcases List.mem_cons.mp hy with rfl | hy
    · exact foldl_min_le_init l y
    · exact foldl_min_le_mem l x y hy

theorem npMin_mem (xs : List ℚ) (h : xs ≠ []) : npMin xs ∈ xs := by
  cases xs with
  | nil => exact absurd rfl h
  | cons x l =>
    rcases foldl_min_attained l x with h2 | h2
    · show l.foldl min x ∈ x :: l
      rw [h2]
      exact List.mem_cons_self x l
    · exact List.mem_cons_of_mem x h2

theorem le_npMax (xs : List ℚ) (y : ℚ) (hy : y ∈ xs) : y ≤ npMax xs := by
  cases xs with
  | nil => simp at hy
  | cons x l =>
    rcases List.mem_cons.mp hy with rfl | hy
    · exact le_foldl_max_init l y
    · exact mem_le_foldl_max l x y hy

theorem length_mul_le_sum (l : List ℚ) (a : ℚ) (h : ∀ x ∈ l, a ≤ x) :
    (l.length : ℚ) * a ≤ l.sum := by
  induction l with
  | nil => simp
  | cons x l ih =>
    have hx := h x (List.mem_cons_self x l)
    have hl := ih fun y hy => h y (List.mem_cons_of_mem x hy)
    rw [List.sum_cons, List.length_cons]
    push_cast
    linarith

theorem sum_le_length_mul (l : List ℚ) (b : ℚ) (h : ∀ x ∈ l, x ≤ b) :
    l.sum ≤ (l.length : ℚ) * b := by
  induction l with
  | nil => simp
  | cons x l ih =>
    have hx := h x (List.mem_cons_self x l)
    have hl := ih fun y hy => h y (List.mem_cons_of_mem x hy)
    rw [List.sum_cons, List.length_cons]
    push_cast
    linarith

theorem npMin_le_npMean (xs : List ℚ) (h : xs ≠ []) : npMin xs ≤ npMean xs := by
  have hn : (0 : ℚ) < (xs.length : ℚ) := by exact_mod_cast List.length_pos.mpr h
  rw [npMean, le_div_iff₀ hn, mul_comm]
  exact length_mul_le_sum xs (npMin xs) fun x hx => npMin_le xs x hx

theorem npMean_le_npMax (xs : List ℚ) (h : xs ≠ []) : npMean xs ≤ npMax xs := by
  have hn : (0 : ℚ) < (xs.length : ℚ) := by exact_mod_cast List.length_pos.mpr h
  rw [npMean, div_le_iff₀ hn, mul_comm]
  exact sum_le_length_mul xs (npMax xs) fun x hx => le_npMax xs x hx

theorem npMedian_bounds (xs : List ℚ) (h : xs ≠ []) :
    npMin xs ≤ npMedian xs ∧ npMedian xs ≤ npMax xs := by
  have hperm : (List.insertionSort (fun a b => a ≤ b) xs).Perm xs :=
    List.perm_insertionSort _ xs
  have hlen : (List.insertionSort (fun a b => a ≤ b) xs).length = xs.length := hperm.length_eq
  have hpos : 0 < (List.insertionSort (fun a b => a ≤ b) xs).length := by
    rw [hlen]; exact List.length_pos.mpr h
  have hget : ∀ i, i < (List.insertionSort (fun a b => a ≤ b) xs).length →
      npMin xs ≤ (List.insertionSort (fun a b => a ≤ b) xs).getD i 0 ∧
      (List.insertionSort (fun a b => a ≤ b) xs).getD i 0 ≤ npMax xs := by
    intro i hi
    rw [List.getD_eq_getElem _ 0 hi]
    have hmem : (List.insertionSort (fun a b => a ≤ b) xs)[i] ∈ xs :=
      hperm.mem_iff.mp (List.getElem_mem hi)
    exact ⟨npMin_le xs _ hmem, le_npMax xs _ hmem⟩
  rw [npMedian, npMedianOf]
  split
  · exact hget _ (Nat.div_lt_self hpos (by norm_num))
  · have h2 : 2 ≤ (List.insertionSort (fun a b => a ≤ b) xs).length := by omega
    obtain ⟨ha1, ha2⟩ := hget ((List.insertionSort (fun a b => a ≤ b) xs).length / 2 - 1) (by omega)
    obtain ⟨hb1, hb2⟩ := hget ((List.insertionSort (fun a b => a ≤ b) xs).length / 2) (by omega)
    constructor <;> linarith

theorem sampleVariance_nonneg (xs : List ℚ) (h : 2 ≤ xs.length) : 0 ≤ sampleVariance xs := by
  apply div_nonneg
  · apply List.sum_nonneg
    intro x hx
    obtain ⟨y, _, rfl⟩ := List.mem_map.mp hx
    positivity
  · have : (2 : ℚ) ≤ (xs.length : ℚ) := by exact_mod_cast h
    linarith

/-- C1, counterexample: the claim asserts CI_lower ≤ mean ≤ CI_upper and
CI_width > 0 for every sequence of length n ≥ 2 including zero-variance
ones; but on the all-equal sequence [5, 5] the source passes scale = 0 to
`stats.t.interval`, whose argument check fails, so the CI bounds and width
are NaN (modelled `none`) and neither conjunct of the claim holds. -/
theorem ci_zero_variance_nan :
    ciInterval tExample [(5 : ℚ), 5] = none ∧ ciWidth tExample [(5 : ℚ), 5] = none := by
  have hv : sampleVariance [(5 : ℚ), 5] = 0 := by
    norm_num [sampleVariance, npMean]
  constructor
  · rw [ciInterval, if_pos (by norm_num), if_pos hv]
  · rw [ciWidth, ciInterval, if_pos (by norm_num), if_pos hv]
    rfl

/-- C1, amended: for every sample sequence of length n ≥ 2 with nonzero
sample variance (i.e. not all samples equal) and any positive t-quantile,
the confidence interval is defined, contains the mean, and has strictly
positive width; for zero-variance sequences the bounds are NaN (see the
counterexample). -/
theorem ci_contains_mean_width_pos (t975 : ℕ → ℝ) (xs : List ℚ)
    (h2 : 2 ≤ xs.length) (ht : 0 < t975 (xs.length - 1))
    (hv : sampleVariance xs ≠ 0) :
    ∃ lo hi, ciInterval t975 xs = some (lo, hi) ∧ lo ≤ (npMean xs : ℝ) ∧
      (npMean xs : ℝ) ≤ hi ∧ ciWidth t975 xs = some (hi - lo) ∧ 0 < hi - lo := by
  have h1 : 1 < xs.length := h2
  have hvpos : 0 < sampleVariance xs :=
    lt_of_le_of_ne (sampleVariance_nonneg xs h2) (Ne.symm hv)
  have hstd : 0 < stdVal xs := Real.sqrt_pos.mpr (by exact_mod_cast hvpos)
  have hnpos : (0 : ℝ) < Real.sqrt (xs.length : ℝ) := by
    apply Real.sqrt_pos.mpr
    have : (2 : ℝ) ≤ (xs.length : ℝ) := by exact_mod_cast h2
    linarith
  have hsem : 0 < stdErr xs := div_pos hstd hnpos
  have hts : 0 < t975 (xs.length - 1) * stdErr xs := mul_pos ht hsem
  refine ⟨(npMean xs : ℝ) - t975 (xs.length - 1) * stdErr xs,
          (npMean xs : ℝ) + t975 (xs.length - 1) * stdErr xs,
          ?_, by linarith, by linarith, ?_, by linarith⟩
  · rw [ciInterval, if_pos h1, if_neg hv]
  · rw [ciWidth, ciInterval, if_pos h1, if_neg hv]
    rfl

/-- C1, witness: the amended theorem applied to the sample list [1, 2]
with the stand-in quantile function. -/
theorem ci_contains_mean_width_pos_witness :
    (2 ≤ ([(1 : ℚ), 2] : List ℚ).length ∧ 0 < tExample (([(1 : ℚ), 2] : List ℚ).length - 1) ∧
      sampleVariance [(1 : ℚ), 2] ≠ 0) ∧
    (∃ lo hi, ciInterval tExample [(1 : ℚ), 2] = some (lo, hi) ∧
      lo ≤ (npMean [(1 : ℚ), 2] : ℝ) ∧ (npMean [(1 : ℚ), 2] : ℝ) ≤ hi ∧
      ciWidth tExample [(1 : ℚ), 2] = some (hi - lo) ∧ 0 < hi - lo) := by
  have ha : 2 ≤ ([(1 : ℚ), 2] : List ℚ).length := by norm_num
  have hb : 0 < tExample (([(1 : ℚ), 2] : List ℚ).length - 1) := by norm_num [tExample]
  have hc : sampleVariance [(1 : ℚ), 2] ≠ 0 := by norm_num [sampleVariance, npMean]
  exact ⟨⟨ha, hb, hc⟩, ci_contains_mean_width_pos tExample [(1 : ℚ), 2] ha hb hc⟩

/-- C3: on a single-sample sequence [v] the source's mean and special-cased
confidence interval behave as the claim says (mean v, CI [v, v], width 0),
but the standard-deviation output is `np.std(ddof=1)` = 0/0 = NaN
(modelled `none`), not the claimed 0 — evaluating the embedded code at the
failing input exhibits the divergence. -/
theorem single_sample_outputs (v : ℚ) (t975 : ℕ → ℝ) :
    npMean [v] = v ∧ npStd [v] = none ∧
    ciInterval t975 [v] = some ((v : ℝ), (v : ℝ)) ∧ ciWidth t975 [v] = some 0 := by
  have hm : npMean [v] = v := by simp [npMean]
  refine ⟨hm, ?_, ?_, ?_⟩
  · rw [npStd, if_neg (by norm_num)]
  · rw [ciInterval, if_neg (by norm_num), hm]
  · rw [ciWidth, ciInterval, if_neg (by norm_num), hm]
    simp

/-- C7: the coefficient-of-variation computation at line 76 is not guarded
against a zero mean: on the sequence [0, 0] the standard deviation is
defined (0) and the mean is 0, so the source divides 0 by 0 and stores NaN
(modelled `none`) instead of the claimed defined value 0. -/
theorem cv_zero_mean_undefined :
    npCV [(0 : ℚ), 0] = none ∧ npStd [(0 : ℚ), 0] = some 0 ∧ npMean [(0 : ℚ), 0] = 0 := by
  have hm : npMean [(0 : ℚ), 0] = 0 := by simp [npMean]
  have hv : sampleVariance [(0 : ℚ), 0] = 0 := by
    norm_num [sampleVariance, npMean]
  refine ⟨?_, ?_, hm⟩
  · rw [npCV, npStd, if_pos (by norm_num)]
    simp [hm]
  · rw [npStd, if_pos (by norm_num), stdVal, hv]
    norm_num

/-- C9: for every non-empty sample sequence, the statistics record
satisfies min ≤ mean ≤ max and min ≤ median ≤ max, and its valid-run count
equals the length of the sequence. -/
theorem stats_record_invariants (lang : String) (xs : List ℚ) (h : xs ≠ []) :
    (statsOfTimes lang xs).minT ≤ (statsOfTimes lang xs).mean ∧
    (statsOfTimes lang xs).mean ≤ (statsOfTimes lang xs).maxT ∧
    (statsOfTimes lang xs).minT ≤ (statsOfTimes lang xs).median ∧
    (statsOfTimes lang xs).median ≤ (statsOfTimes lang xs).maxT ∧
    (statsOfTimes lang xs).validRuns = xs.length := by
  obtain ⟨h1, h2⟩ := npMedian_bounds xs h
  exact ⟨npMin_le_npMean xs h, npMean_le_npMax xs h, h1, h2, rfl⟩

/-- C9, witness: the record invariants at the concrete sequence [3, 1, 2]. -/
theorem stats_record_invariants_witness :
    ([(3 : ℚ), 1, 2] : List ℚ) ≠ [] ∧
    ((statsOfTimes "go" [(3 : ℚ), 1, 2]).minT ≤ (statsOfTimes "go" [(3 : ℚ), 1, 2]).mean ∧
     (statsOfTimes "go" [(3 : ℚ), 1, 2]).mean ≤ (statsOfTimes "go" [(3 : ℚ), 1, 2]).maxT ∧
     (statsOfTimes "go" [(3 : ℚ), 1, 2]).minT ≤ (statsOfTimes "go" [(3 : ℚ), 1, 2]).median ∧
     (statsOfTimes "go" [(3 : ℚ), 1, 2]).median ≤ (statsOfTimes "go" [(3 : ℚ), 1, 2]).maxT ∧
     (statsOfTimes "go" [(3 : ℚ), 1, 2]).validRuns = ([(3 : ℚ), 1, 2] : List ℚ).length) := by
  have h : ([(3 : ℚ), 1, 2] : List ℚ) ≠ [] := by simp
  exact ⟨h, stats_record_invariants "go" [(3 : ℚ), 1, 2] h⟩

theorem rankFrom_mem (f : ℚ) (l : List StatRow) :
    ∀ (k : ℕ) (rr : RankedRow), rr ∈ rankFrom f k l →
      rr.row ∈ l ∧ rr.relSpeed = rr.row.mean / f := by
  induction l with
  | nil => intro k rr h; simp [rankFrom] at h
  | cons r rs ih =>
    intro k rr h
    rw [rankFrom] at h
    rcases List.mem_cons.mp h with rfl | h2
    · exact ⟨List.mem_cons_self _ _, rfl⟩
    · obtain ⟨h3, h4⟩ := ih (k + 1) rr h2
      exact ⟨List.mem_cons_of_mem r h3, h4⟩

theorem create_ranking_mem (sorted : List StatRow) :
    ∀ rr ∈ create_ranking_analysis sorted, rr.row ∈ sorted := by
  cases sorted with
  | nil => intro rr h; simp [create_ranking_analysis] at h
  | cons r0 rs => exact fun rr h => (rankFrom_mem r0.mean (r0 :: rs) 1 rr h).1

/-- C6: over a non-empty statistics table with positive minimum mean, every
ranked record's relative speed equals its mean divided by the minimum mean,
every relative speed is at least 1, and some record attains the minimum
mean with relative speed exactly 1.  The sorted table is taken together
with pandas' sorting contract (a mean-ascending permutation) as
hypotheses. -/
theorem ranking_relative_speed (stats sorted : List StatRow)
    (hperm : sorted.Perm stats)
    (hsorted : List.Sorted (fun a b => a.mean ≤ b.mean) sorted)
    (hne : stats ≠ []) (hpos : 0 < minMean stats) :
    (∀ rr ∈ create_ranking_analysis sorted,
      rr.relSpeed = rr.row.mean / minMean stats ∧ 1 ≤ rr.relSpeed) ∧
    ∃ rr ∈ create_ranking_analysis sorted,
      rr.row.mean = minMean stats ∧ rr.relSpeed = 1 := by
  have hsne : sorted ≠ [] := by
    intro hnil
    rw [hnil] at hperm
    have hlen := hperm.length_eq
    simp at hlen
    exact hne (List.length_eq_zero.mp hlen.symm)
  obtain ⟨r0, rs, rfl⟩ := List.exists_cons_of_ne_nil hsne
  have hr0mem : r0 ∈ stats := hperm.mem_iff.mp (List.mem_cons_self r0 rs)
  have hle : minMean stats ≤ r0.mean :=
    npMin_le _ _ (List.mem_map_of_mem (fun r => r.mean) hr0mem)
  have hge : r0.mean ≤ minMean stats := by
    have hmapne : stats.map (fun r => r.mean) ≠ [] := by
      intro hmn
      exact hne (List.map_eq_nil_iff.mp hmn)
    obtain ⟨r, hr, hrm⟩ := List.mem_map.mp (npMin_mem _ hmapne)
    have hrs : r ∈ r0 :: rs := hperm.mem_iff.mpr hr
    rcases List.mem_cons.mp hrs with rfl | htail
    · rw [minMean]
      exact le_of_eq hrm
    · rw [minMean, ← hrm]
      exact (List.sorted_cons.mp hsorted).1 r htail
  have heq : r0.mean = minMean stats := le_antisymm hge hle
  have hminpos : 0 < r0.mean := heq ▸ hpos
  have hmain : ∀ rr ∈ create_ranking_analysis (r0 :: rs),
      rr.relSpeed = rr.row.mean / minMean stats ∧ 1 ≤ rr.relSpeed := by
    intro rr hrr
    obtain ⟨hrow, hspeed⟩ := rankFrom_mem r0.mean (r0 :: rs) 1 rr hrr
    have hrowstats : rr.row ∈ stats := hperm.mem_iff.mp hrow
    have hminle : minMean stats ≤ rr.row.mean :=
      npMin_le _ _ (List.mem_map_of_mem (fun r => r.mean) hrowstats)
    constructor
    · rw [hspeed, heq]
    · rw [hspeed, ← heq] at *
      exact (one_le_div hminpos).mpr hminle
  refine ⟨hmain, ⟨r0, 1, r0.mean / r0.mean⟩, List.mem_cons_self _ _, heq, ?_⟩
  exact div_self (ne_of_gt hminpos)

/-- C6, witness: the relative-speed properties at a concrete two-row
table with means 2 and 4. -/
theorem ranking_relative_speed_witness :
    (statsEx.Perm statsEx ∧ List.Sorted (fun a b : StatRow => a.mean ≤ b.mean) statsEx ∧
      statsEx ≠ [] ∧ 0 < minMean statsEx) ∧
    ((∀ rr ∈ create_ranking_analysis statsEx,
      rr.relSpeed = rr.row.mean / minMean statsEx ∧ 1 ≤ rr.relSpeed) ∧
    ∃ rr ∈ create_ranking_analysis statsEx,
      rr.row.mean = minMean statsEx ∧ rr.relSpeed = 1) := by
  have h1 : statsEx.Perm statsEx := List.Perm.refl _
  have h2 : List.Sorted (fun a b : StatRow => a.mean ≤ b.mean) statsEx := by
    rw [statsEx]
    refine List.sorted_cons.mpr ⟨?_, List.sorted_singleton _⟩
    intro b hb
    rw [List.mem_singleton.mp hb]
    norm_num [statRowA, statRowB]
  have h3 : statsEx ≠ [] := by simp [statsEx]
  have h4 : 0 < minMean statsEx := by
    norm_num [minMean, statsEx, statRowA, statRowB, npMin]
  exact ⟨⟨h1, h2, h3, h4⟩, ranking_relative_speed statsEx statsEx h1 h2 h3 h4⟩

theorem cleanRows_lang_ne (rows : List RawRow) (bad : RawRow)
    (hmem : bad ∈ rows) (hbad : ∀ c ∈ bad.runs, c = none)
    (huniq : ∀ r ∈ rows, r.language = bad.language → r = bad) :
    ∀ r ∈ cleanRows rows, r.language ≠ bad.language := by
  intro r hr hlang
  obtain ⟨hrrows, hany⟩ := List.mem_filter.mp hr
  have hrbad : r = bad := huniq r hrrows hlang
  subst hrbad
  rw [List.any_eq_true] at hany
  obtain ⟨c, hc, hcs⟩ := hany
  rw [hbad c hc] at hcs
  simp at hcs

theorem calculate_statistics_lang (rows : List RawRow) :
    ∀ s ∈ calculate_statistics rows, ∃ r ∈ rows, s.language = r.language := by
  intro s hs
  obtain ⟨r, hr, rfl⟩ := List.mem_map.mp hs
  exact ⟨r, (List.mem_filter.mp hr).1, rfl⟩

theorem idxminCv_mem (l : List StatRow) : ∀ x : StatRow, idxminCv l = some x → x ∈ l := by
  induction l with
  | nil => intro x h; simp [idxminCv] at h
  | cons r rs ih =>
    intro x h
    rw [idxminCv] at h
    rcases h1 : idxminCv rs with _ | b <;> rcases h2 : r.cvK with _ | q <;>
      rw [h1, h2] at h <;> simp only [] at h
    · exact absurd h (by simp)
    · rw [Option.some_inj.mp h.symm]
      exact List.mem_cons_self _ _
    · rw [Option.some_inj.mp h.symm]
      exact List.mem_cons_of_mem r (ih b h1)
    · rcases h3 : b.cvK with _ | qb <;> rw [h3] at h <;> simp only [] at h
      · rw [Option.some_inj.mp h.symm]
        exact List.mem_cons_self _ _
      · split at h
        · rw [Option.some_inj.mp h.symm]
          exact List.mem_cons_self _ _
        · rw [Option.some_inj.mp h.symm]
          exact List.mem_cons_of_mem r (ih b h1)

theorem idxmaxCv_mem (l : List StatRow) : ∀ x : StatRow, idxmaxCv l = some x → x ∈ l := by
  induction l with
  | nil => intro x h; simp [idxmaxCv] at h
  | cons r rs ih =>
    intro x h
    rw [idxmaxCv] at h
    rcases h1 : idxmaxCv rs with _ | b <;> rcases h2 : r.cvK with _ | q <;>
      rw [h1, h2] at h <;> simp only [] at h
    · exact absurd h (by simp)
    · rw [Option.some_inj.mp h.symm]
      exact List.mem_cons_self _ _
    · rw [Option.some_inj.mp h.symm]
      exact List.mem_cons_of_mem r (ih b h1)
    · rcases h3 : b.cvK with _ | qb <;> rw [h3] at h <;> simp only [] at h
      · rw [Option.some_inj.mp h.symm]
        exact List.mem_cons_self _ _
      · split at h
        · rw [Option.some_inj.mp h.symm]
          exact List.mem_cons_self _ _
        · rw [Option.some_inj.mp h.symm]
          exact List.mem_cons_of_mem r (ih b h1)

theorem getLast?_mem_self (l : List RankedRow) (a : RankedRow) (h : l.getLast? = some a) :
    a ∈ l := by
  obtain ⟨hne, rfl⟩ := List.mem_getLast?_eq_getLast h
  exact List.getLast_mem hne

theorem reportLanguages_mem (stats : List StatRow) (ranking : List RankedRow) (s : String)
    (hs : s ∈ reportLanguages stats ranking) :
    (∃ rr ∈ ranking, s = rr.row.language) ∨ ∃ r ∈ stats, s = r.language := by
  rw [reportLanguages] at hs
  simp only [List.mem_append] at hs
  rcases hs with ((((h | h) | h) | h) | h) | h
  · obtain ⟨rr, hrr, rfl⟩ := List.mem_map.mp h
    exact Or.inl ⟨rr, hrr, rfl⟩
  · rw [Option.mem_toList] at h
    obtain ⟨rr, hrr, rfl⟩ := Option.map_eq_some'.mp h
    exact Or.inl ⟨rr, List.mem_of_mem_head? hrr, rfl⟩
  · rw [Option.mem_toList] at h
    obtain ⟨rr, hrr, rfl⟩ := Option.map_eq_some'.mp h
    exact Or.inl ⟨rr, getLast?_mem_self ranking rr hrr, rfl⟩
  · rw [Option.mem_toList] at h
    obtain ⟨r, hr, rfl⟩ := Option.map_eq_some'.mp h
    exact Or.inr ⟨r, idxminCv_mem stats r hr, rfl⟩
  · rw [Option.mem_toList] at h
    obtain ⟨r, hr, rfl⟩ := Option.map_eq_some'.mp h
    exact Or.inr ⟨r, idxmaxCv_mem stats r hr, rfl⟩
  · obtain ⟨rr, hrr, rfl⟩ := List.mem_map.mp h
    exact Or.inl ⟨rr, hrr, rfl⟩

/-- C4: a row whose 25 sample cells all fail numeric parsing is dropped by
the loader, so its language appears nowhere downstream: not in the
statistics table, not in the ranking, and not among the report's language
mentions.  Uniqueness of the language column (the data-model invariant)
rules out an unrelated surviving row with the same name; the ranking is
built from any mean-sorted permutation of the statistics table. -/
theorem all_error_row_absent (rows : List RawRow) (sorted : List StatRow) (bad : RawRow)
    (hmem : bad ∈ rows) (h25 : bad.runs.length = 25)
    (hbad : ∀ c ∈ bad.runs, c = none)
    (huniq : ∀ r ∈ rows, r.language = bad.language → r = bad)
    (hperm : sorted.Perm (calculate_statistics (cleanRows rows))) :
    bad.language ∉ (calculate_statistics (cleanRows rows)).map (fun s => s.language) ∧
    bad.language ∉ (create_ranking_analysis sorted).map (fun rr => rr.row.language) ∧
    bad.language ∉
      reportLanguages (calculate_statistics (cleanRows rows)) (create_ranking_analysis sorted) := by
  have _h25 := h25
  have hstats : ∀ s ∈ calculate_statistics (cleanRows rows), s.language ≠ bad.language := by
    intro s hs
    obtain ⟨r, hr, heq⟩ := calculate_statistics_lang _ s hs
    rw [heq]
    exact cleanRows_lang_ne rows bad hmem hbad huniq r hr
  have hrank : ∀ rr ∈ create_ranking_analysis sorted, rr.row.language ≠ bad.language := by
    intro rr hrr
    exact hstats _ (hperm.mem_iff.mp (create_ranking_mem sorted rr hrr))
  refine ⟨?_, ?_, ?_⟩
  · intro h
    obtain ⟨s, hs, heq⟩ := List.mem_map.mp h
    exact hstats s hs heq
  · intro h
    obtain ⟨rr, hrr, heq⟩ := List.mem_map.mp h
    exact hrank rr hrr heq
  · intro h
    rcases reportLanguages_mem _ _ _ h with ⟨rr, hrr, heq⟩ | ⟨r, hr, heq⟩
    · exact hrank rr hrr heq.symm
    · exact hstats r hr heq.symm

/-- C4, witness: the all-error row "foo" of the two-row scenario dataset is
absent from the statistics table languages. -/
theorem all_error_row_absent_witness :
    (badRowEx ∈ rowsEx ∧ badRowEx.runs.length = 25 ∧ (∀ c ∈ badRowEx.runs, c = none) ∧
      (∀ r ∈ rowsEx, r.language = badRowEx.language → r = badRowEx)) ∧
    badRowEx.language ∉ (calculate_statistics (cleanRows rowsEx)).map (fun s => s.language) := by
  have h1 : badRowEx ∈ rowsEx := by simp [rowsEx]
  have h2 : badRowEx.runs.length = 25 := by simp [badRowEx]
  have h3 : ∀ c ∈ badRowEx.runs, c = none := by
    intro c hc
    exact List.eq_of_mem_replicate hc
  have h4 : ∀ r ∈ rowsEx, r.language = badRowEx.language → r = badRowEx := by
    intro r hr
    rcases List.mem_cons.mp hr with rfl | hr2
    · intro _; rfl
    · rw [List.mem_singleton.mp hr2]
      intro hlang
      exact absurd hlang (by decide)
  exact ⟨⟨h1, h2, h3, h4⟩,
    (all_error_row_absent rowsEx (calculate_statistics (cleanRows rowsEx)) badRowEx
      h1 h2 h3 h4 (List.Perm.refl _)).1⟩

/-- C5: on both fatal paths — the input file absent, or every row left
with zero valid samples after cleaning — the pipeline stops with exit code
1 and produces no artifacts: no statistics CSV, no report, no image (the
artifact record exists only on the `Except.ok` path). -/
theorem fatal_paths_produce_nothing (sortImpl : List StatRow → List StatRow)
    (rows : List RawRow) (hall : ∀ r ∈ rows, ∀ c ∈ r.runs, c = none) :
    mainPipeline sortImpl none = Except.error 1 ∧
    mainPipeline sortImpl (some rows) = Except.error 1 := by
  constructor
  · rfl
  · have hclean : cleanRows rows = [] := by
      rw [cleanRows, List.filter_eq_nil_iff]
      intro r hr
      simp only [List.any_eq_true, not_exists, not_and]
      intro c hc
      rw [hall r hr c hc]
      simp
    rw [mainPipeline, load_and_clean_data]
    simp [hclean]

/-- C5, witness: the second fatal path at the concrete one-row dataset
whose every cell is the error sentinel. -/
theorem fatal_paths_produce_nothing_witness :
    (∀ r ∈ [badRowEx], ∀ c ∈ r.runs, c = none) ∧
    (mainPipeline id none = Except.error 1 ∧
      mainPipeline id (some [badRowEx]) = Except.error 1) := by
  have h : ∀ r ∈ [badRowEx], ∀ c ∈ r.runs, c = none := by
    intro r hr c hc
    rw [List.mem_singleton.mp hr] at hc
    exact List.eq_of_mem_replicate hc
  exact ⟨h, fatal_paths_produce_nothing id [badRowEx] h⟩

/-- C8: the loader is a pure function of the file content — two loads of
equal content give equal results, in particular the same retained
languages in the same order and the same valid-sample sequences. -/
theorem loader_deterministic (c1 c2 : Option (List RawRow)) (h : c1 = c2) :
    load_and_clean_data c1 = load_and_clean_data c2 ∧
    (load_and_clean_data c1).toOption.map (fun l => l.map fun r => r.language) =
      (load_and_clean_data c2).toOption.map (fun l => l.map fun r => r.language) ∧
    (load_and_clean_data c1).toOption.map (fun l => l.map times) =
      (load_and_clean_data c2).toOption.map (fun l => l.map times) := by
  subst h
  exact ⟨rfl, rfl, rfl⟩

/-- C8, witness: two loads of the concrete scenario dataset agree. -/
theorem loader_deterministic_witness :
    (some rowsEx = some rowsEx) ∧
    load_and_clean_data (some rowsEx) = load_and_clean_data (some rowsEx) :=
  ⟨rfl, (loader_deterministic (some rowsEx) (some rowsEx) rfl).1⟩

end Analysis

namespace OneMax

theorem initialize_individual_length (n : ℕ) : ∀ g : Gen, (initialize_individual n g).1.length = n := by
  induction n with
  | zero => intro g; rfl
  | succ n ih =>
    intro g
    show ((nextBool g).1 :: (initialize_individual n (nextBool g).2).1).length = n + 1
    rw [List.length_cons, ih]

theorem initialize_population_spec (n len : ℕ) :
    ∀ g : Gen, (initialize_population n len g).1.length = n ∧
      ∀ ind ∈ (initialize_population n len g).1, ind.length = len := by
  induction n with
  | zero => intro g; exact ⟨rfl, by intro ind h; simp [initialize_population] at h⟩
  | succ n ih =>
    intro g
    obtain ⟨h1, h2⟩ := ih (initialize_individual len g).2
    constructor
    · show ((initialize_individual len g).1 :: _).length = n + 1
      rw [List.length_cons, h1]
    · intro ind hind
      rcases List.mem_cons.mp hind with rfl | htail
      · exact initialize_individual_length len g
      · exact h2 ind htail

theorem mutate_length (ind : Individual) : ∀ g : Gen, (mutate ind g).1.length = ind.length := by
  induction ind with
  | nil => intro g; rfl
  | cons b bs ih =>
    intro g
    show (_ :: (mutate bs (nextBool g).2).1).length = bs.length + 1
    rw [List.length_cons, ih]

theorem evaluate_fitness_le (ind : Individual) : evaluate_fitness ind ≤ ind.length :=
  List.length_filter_le _ _

theorem pickBest_mem (fits : List ℕ) :
    ∀ (is : List ℕ) (best : ℕ), pickBest fits best is = best ∨ pickBest fits best is ∈ is := by
  intro is
  induction is with
  | nil => intro best; left; rfl
  | cons i is ih =>
    intro best
    have hstep : pickBest fits best (i :: is) =
        pickBest fits (if fits.getD best 0 < fits.getD i 0 then i else best) is := rfl
    rcases ih (if fits.getD best 0 < fits.getD i 0 then i else best) with h | h
    · rw [hstep, h]
      split
      · right; exact List.mem_cons_self i is
      · left; rfl
    · right
      rw [hstep]
      exact List.mem_cons_of_mem i h

theorem randIndices_lt (n : ℕ) (hn : 0 < n) :
    ∀ (k : ℕ) (g : Gen), ∀ i ∈ (randIndices n k g).1, i < n := by
  intro k
  induction k with
  | zero => intro g i h; simp [randIndices] at h
  | succ k ih =>
    intro g i h
    rcases List.mem_cons.mp h with rfl | htail
    · exact Nat.mod_lt _ hn
    · exact ih _ i htail

theorem tournament_selection_mem (pop : Population) (fits : List ℕ) (tsize : ℕ) (g : Gen)
    (hpop : pop ≠ []) : (tournament_selection pop fits tsize g).1 ∈ pop := by
  have hlen : 0 < pop.length := List.length_pos.mpr hpop
  rw [tournament_selection]
  rcases hdrawn : (randIndices pop.length tsize g).1 with _ | ⟨i0, rest⟩
  · simp only []
    rw [List.getD_eq_getElem _ [] hlen]
    exact List.getElem_mem hlen
  · simp only []
    have hidx : pickBest fits i0 rest < pop.length := by
      rcases pickBest_mem fits rest i0 with h | h
      · rw [h]
        have : i0 ∈ (randIndices pop.length tsize g).1 := by
          rw [hdrawn]; exact List.mem_cons_self _ _
        exact randIndices_lt pop.length hlen tsize g i0 this
      · have : pickBest fits i0 rest ∈ (randIndices pop.length tsize g).1 := by
          rw [hdrawn]; exact List.mem_cons_of_mem i0 h
        exact randIndices_lt pop.length hlen tsize g _ this
    rw [List.getD_eq_getElem _ [] hidx]
    exact List.getElem_mem hidx

theorem crossover_lengths (p1 p2 : Individual) (g : Gen)
    (h1 : p1.length = CHROMOSOME_LENGTH) (h2 : p2.length = CHROMOSOME_LENGTH) :
    (single_point_crossover p1 p2 g).1.1.length = CHROMOSOME_LENGTH ∧
    (single_point_crossover p1 p2 g).1.2.length = CHROMOSOME_LENGTH := by
  rw [single_point_crossover]
  split
  · exact ⟨h1, h2⟩
  · have hp : 1 + (nextNat (nextBool g).2).1 % (p1.length - 1) ≤ 100 := by
      have hmod : (nextNat (nextBool g).2).1 % (p1.length - 1) < p1.length - 1 := by
        apply Nat.mod_lt
        rw [h1]
        norm_num [CHROMOSOME_LENGTH]
      rw [h1] at hmod ⊢
      revert hmod
      norm_num [CHROMOSOME_LENGTH]
      omega
    constructor <;>
      simp only [List.length_append, List.length_take, List.length_drop] <;>
      rw [h1, h2] at * <;>
      revert hp <;>
      norm_num [CHROMOSOME_LENGTH] <;>
      omega

theorem breed_lengths (pop : Population) (fits : List ℕ) (g : Gen) (hinv : popInv pop) :
    (breed pop fits g).1.1.length = CHROMOSOME_LENGTH ∧
    (breed pop fits g).1.2.length = CHROMOSOME_LENGTH := by
  obtain ⟨hsize, hlen⟩ := hinv
  have hne : pop ≠ [] := by
    intro h
    rw [h] at hsize
    simp [POPULATION_SIZE] at hsize
  have hp1 := hlen _ (tournament_selection_mem pop fits TOURNAMENT_SIZE g hne)
  have hp2 := hlen _ (tournament_selection_mem pop fits TOURNAMENT_SIZE
    (tournament_selection pop fits TOURNAMENT_SIZE g).2 hne)
  obtain ⟨hc1, hc2⟩ := crossover_lengths _ _
    (tournament_selection pop fits TOURNAMENT_SIZE
      (tournament_selection pop fits TOURNAMENT_SIZE g).2).2 hp1 hp2
  rw [breed]
  constructor
  · rw [mutate_length]
    exact hc1
  · rw [mutate_length]
    exact hc2

theorem buildNewPopulation_inv (pop : Population) (fits : List ℕ) (hinv : popInv pop) :
    ∀ (k : ℕ) (acc : Population) (g : Gen),
      (∀ i ∈ acc, i.length = CHROMOSOME_LENGTH) → acc.length + 2 * k = POPULATION_SIZE →
      popInv (buildNewPopulation pop fits k acc g).1 := by
  intro k
  induction k with
  | zero =>
    intro acc g hacc hsum
    constructor
    · simpa using hsum
    · exact hacc
  | succ k ih =>
    intro acc g hacc hsum
    obtain ⟨hb1, hb2⟩ := breed_lengths pop fits g hinv
    rw [buildNewPopulation]
    have hlt : (acc ++ [(breed pop fits g).1.1]).length < POPULATION_SIZE := by
      rw [List.length_append]
      simp only [List.length_singleton]
      omega
    rw [if_pos hlt]
    apply ih
    · intro i hi
      rcases List.mem_append.mp hi with hi | hi
      · rcases List.mem_append.mp hi with hi | hi
        · exact hacc i hi
        · rw [List.mem_singleton.mp hi]
          exact hb1
      · rw [List.mem_singleton.mp hi]
        exact hb2
    · simp only [List.length_append, List.length_singleton]
      omega

theorem next_generation_inv (pop : Population) (fits : List ℕ) (g : Gen) (hinv : popInv pop) :
    popInv (next_generation pop fits g).1 := by
  apply buildNewPopulation_inv pop fits hinv
  · intro i hi
    simp at hi
  · rfl

theorem foldl_max_le (b : ℕ) : ∀ (l : List ℕ) (a : ℕ), a ≤ b → (∀ x ∈ l, x ≤ b) →
    l.foldl max a ≤ b := by
  intro l
  induction l with
  | nil => intro a ha _; exact ha
  | cons x l ih =>
    intro a ha hl
    show l.foldl max (max a x) ≤ b
    exact ih (max a x) (max_le ha (hl x (List.mem_cons_self x l)))
      fun y hy => hl y (List.mem_cons_of_mem x hy)

theorem maxFitness_le (pop : Population) (h : ∀ ind ∈ pop, ind.length = CHROMOSOME_LENGTH) :
    maxFitness (pop.map evaluate_fitness) ≤ CHROMOSOME_LENGTH := by
  apply foldl_max_le
  · exact Nat.zero_le _
  · intro x hx
    obtain ⟨ind, hind, rfl⟩ := List.mem_map.mp hx
    rw [← h ind hind]
    exact evaluate_fitness_le ind

theorem gaLoop_spec : ∀ (fuel gen : ℕ) (pop : Population) (g : Gen), popInv pop →
    1 ≤ gen → gen + fuel = MAX_GENERATIONS + 1 →
    1 ≤ (gaLoop fuel gen pop g).1 ∧ (gaLoop fuel gen pop g).1 ≤ MAX_GENERATIONS ∧
    (gaLoop fuel gen pop g).2 ≤ CHROMOSOME_LENGTH ∧
    ((gaLoop fuel gen pop g).1 < MAX_GENERATIONS → (gaLoop fuel gen pop g).2 = CHROMOSOME_LENGTH) := by
  intro fuel
  induction fuel with
  | zero =>
    intro gen pop g hinv _ _
    refine ⟨?_, ?_, maxFitness_le pop hinv.2, ?_⟩
    · norm_num [gaLoop, MAX_GENERATIONS]
    · norm_num [gaLoop]
    · intro h
      exact absurd h (by norm_num [gaLoop])
  | succ fuel ih =>
    intro gen pop g hinv hgen hsum
    rw [gaLoop]
    split
    · rename_i hm
      refine ⟨hgen, by omega, le_of_eq hm, fun _ => hm⟩
    · exact ih (gen + 1) _ _
        (next_generation_inv pop (pop.map evaluate_fitness) g hinv)
        (by omega) (by omega)

/-- C10: for every oracle stream, the initial population has exactly
POPULATION_SIZE individuals of CHROMOSOME_LENGTH genes, building a next
generation preserves that invariant (so it holds throughout the run), and
`run_ga` returns (generations, best fitness) with 1 ≤ generations ≤
MAX_GENERATIONS, best fitness ≤ CHROMOSOME_LENGTH (it is a ℕ, hence ≥ 0),
and best fitness = CHROMOSOME_LENGTH whenever generations <
MAX_GENERATIONS. -/
theorem onemax_invariants (g : Gen) :
    popInv (initialize_population POPULATION_SIZE CHROMOSOME_LENGTH g).1 ∧
    (∀ (pop : Population) (fits : List ℕ) (g2 : Gen), popInv pop →
      popInv (next_generation pop fits g2).1) ∧
    1 ≤ (run_ga g).1 ∧ (run_ga g).1 ≤ MAX_GENERATIONS ∧
    (run_ga g).2 ≤ CHROMOSOME_LENGTH ∧
    ((run_ga g).1 < MAX_GENERATIONS → (run_ga g).2 = CHROMOSOME_LENGTH) := by
  have hinit : popInv (initialize_population POPULATION_SIZE CHROMOSOME_LENGTH g).1 := by
    obtain ⟨h1, h2⟩ := initialize_population_spec POPULATION_SIZE CHROMOSOME_LENGTH g
    exact ⟨h1, h2⟩
  have hrun := gaLoop_spec MAX_GENERATIONS 1
    (initialize_population POPULATION_SIZE CHROMOSOME_LENGTH g).1
    (initialize_population POPULATION_SIZE CHROMOSOME_LENGTH g).2
    hinit (le_refl 1) (Nat.add_comm 1 MAX_GENERATIONS)
  exact ⟨hinit, fun pop fits g2 h => next_generation_inv pop fits g2 h,
    hrun.1, hrun.2.1, hrun.2.2.1, hrun.2.2.2⟩

/-- C10, witness: the invariants instantiated at the constant oracle
stream and, for the preservation conjunct, at the concrete all-ones
population. -/
theorem onemax_invariants_witness :
    popInv onesPop ∧
    (popInv (initialize_population POPULATION_SIZE CHROMOSOME_LENGTH constGen).1 ∧
      popInv (next_generation onesPop (onesPop.map evaluate_fitness) constGen).1 ∧
      1 ≤ (run_ga constGen).1 ∧ (run_ga constGen).1 ≤ MAX_GENERATIONS) := by
  have hones : popInv onesPop := by
    constructor
    · simp [onesPop, POPULATION_SIZE]
    · intro ind h
      rw [List.eq_of_mem_replicate h]
      simp [CHROMOSOME_LENGTH]
  obtain ⟨h1, h2, h3, h4, _⟩ := onemax_invariants constGen
  exact ⟨hones, h1, h2 onesPop (onesPop.map evaluate_fitness) constGen hones, h3, h4⟩

end OneMax
